import Mathlib

/-!
Shallow embedding of the TTS pipeline in `src/utils/tts.py`
(language detection, sentence/word chunking, per-segment request
execution with retries, and the synthesis orchestrator), together
with proofs about the claims of the specification.

Text is modeled as `List Char` (Python strings are sequences of code
points).  Byte payloads are modeled as `List Nat` (one entry per byte).
The remote HTTP backend is modeled as an oracle mapping an attempt
number to a network response; the orchestrator's backend maps a chunk
index and an attempt number to a response.
-/

set_option autoImplicit false

deriving instance DecidableEq for Except

namespace TTS

/-- ASCII whitespace, the class used by Python's `str.strip()` and
`str.split()` on the inputs considered here (`\x0b` and `\x0c` are
vertical tab and form feed). -/
def isWs (c : Char) : Bool :=
  c == ' ' || c == '\t' || c == '\n' || c == '\r' ||
  c == Char.ofNat 11 || c == Char.ofNat 12

/-- Python `str.strip()`: drop whitespace from both ends. -/
def trim (l : List Char) : List Char :=
  ((l.dropWhile isWs).reverse.dropWhile isWs).reverse

/-- Helper for `splitWs`; `acc` holds the current word reversed. -/
def splitWsGo : List Char → List Char → List (List Char)
  | [], acc => if acc.isEmpty then [] else [acc.reverse]
  | c :: rest, acc =>
    if isWs c then
      if acc.isEmpty then splitWsGo rest []
      else acc.reverse :: splitWsGo rest []
    else splitWsGo rest (c :: acc)

/-- Python `str.split()` with no argument: split on runs of whitespace,
dropping empty pieces. -/
def splitWs (l : List Char) : List (List Char) :=
  splitWsGo l []

/-- The characters of the character class in
`re.split(r'[.!?ред]\s*', text)` at line 46 of `tts.py`.  The source
file literally contains the Cyrillic letters р (U+0440), е (U+0435)
and д (U+0434) — mojibake of the Devanagari full stop `।` (U+0964),
which is therefore NOT in the class. -/
def isSentenceDelim (c : Char) : Bool :=
  c == '.' || c == '!' || c == '?' || c == 'р' || c == 'е' || c == 'д'

/-- `re.split(r'[.!?ред]\s*', text)`: each match (one delimiter plus
the following whitespace run) separates two pieces; pieces between
adjacent matches are empty.  Implemented as a single pass: `acc` holds
the current piece reversed, and `skip` is true while consuming the
`\s*` whitespace run that follows a delimiter. -/
def splitSentGo : List Char → List Char → Bool → List (List Char)
  | [], acc, _ => [acc.reverse]
  | c :: rest, acc, skip =>
    if skip && isWs c then splitSentGo rest acc true
    else if isSentenceDelim c then acc.reverse :: splitSentGo rest [] true
    else splitSentGo rest (c :: acc) false

def splitSentences (l : List Char) : List (List Char) :=
  splitSentGo l [] false

/-- The inner word loop of `chunk_text` (lines 61-74 of `tts.py`):
accumulate words into `temp`; flushing `temp.strip()` when the next
word would overflow, and hard-truncating a word that alone overflows
an empty `temp`.  Returns the chunks list and the final `temp`. -/
def wordLoop (maxLen : Nat) : List (List Char) → List (List Char) → List Char →
    List (List Char) × List Char
  | [], chunks, temp => (chunks, temp)
  | w :: ws, chunks, temp =>
    if temp.length + w.length + 1 > maxLen then
      if temp = [] then
        wordLoop maxLen ws (chunks ++ [w.take maxLen]) temp
      else
        wordLoop maxLen ws (chunks ++ [trim temp]) w
    else
      wordLoop maxLen ws chunks (if temp = [] then w else temp ++ ' ' :: w)

/-- The sentence loop of `chunk_text` (lines 49-76 of `tts.py`).
Each raw sentence is stripped and skipped if empty; if appending it to
the running buffer `cur` would overflow, either the buffer is flushed
(when non-empty) or the sentence is word-split via `wordLoop` (when
the buffer is empty; afterwards `cur` becomes the leftover `temp`
when that is non-empty). -/
def sentLoop (maxLen : Nat) : List (List Char) → List (List Char) → List Char →
    List (List Char) × List Char
  | [], chunks, cur => (chunks, cur)
  | s0 :: ss, chunks, cur =>
    let s := trim s0
    if s = [] then
      sentLoop maxLen ss chunks cur
    else if cur.length + s.length + 1 > maxLen then
      if cur = [] then
        match wordLoop maxLen (splitWs s) chunks [] with
        | (chunks2, temp) =>
          sentLoop maxLen ss chunks2 (if temp = [] then cur else temp)
      else
        sentLoop maxLen ss (chunks ++ [trim cur]) s
    else
      sentLoop maxLen ss chunks (if cur = [] then s else cur ++ ' ' :: s)

/-- `chunk_text(text, max_length)` (lines 31-95 of `tts.py`), the
non-exceptional path: empty or whitespace-only input yields `[]`;
input fitting the cap is returned whole; otherwise sentences are
packed greedily, the final buffer is flushed, whitespace-only chunks
are filtered out, and an empty outcome falls back to the truncated
stripped text. -/
def chunk_text (text : List Char) (maxLen : Nat) : List (List Char) :=
  if text = [] then []
  else
    let t := trim text
    if t = [] then []
    else if t.length ≤ maxLen then [t]
    else
      match sentLoop maxLen (splitSentences t) [] [] with
      | (chunks, cur) =>
        let chunks2 := if cur = [] then chunks else chunks ++ [trim cur]
        let chunks3 := chunks2.filter (fun c => !(trim c).isEmpty)
        if chunks3 = [] then [t.take maxLen] else chunks3

/-! ### Input validation (`validate_input`, lines 97-119) -/

/-- Number of bytes in the UTF-8 encoding of one code point. -/
def utf8CharLen (c : Char) : Nat :=
  if c.toNat < 128 then 1
  else if c.toNat < 2048 then 2
  else if c.toNat < 65536 then 3
  else 4

/-- `len(text.encode('utf-8'))`. -/
def utf8Len (l : List Char) : Nat :=
  (l.map utf8CharLen).sum

/-- The distinct error messages produced by `text_to_speech` and
`validate_input`; one constructor per `return {"success": False, ...}`
site. -/
inductive OErr where
  /-- "Text is required" -/
  | textRequired
  /-- "Text cannot be empty or only whitespace" -/
  | emptyText
  /-- "Text must be less than 2000 characters for free TTS" -/
  | tooManyChars
  /-- "Text is too long when encoded (max 3000 bytes)" -/
  | tooManyBytes
  /-- "Could not detect language" -/
  | noLanguage
  /-- "Could not process text into chunks" -/
  | chunkingFailed
  /-- "Too many chunks failed ({failed}/{total})" -/
  | tooManyFailed (failed total : Nat)
  /-- "No audio was generated successfully" -/
  | noAudio
  /-- "Combined audio is too small to be valid" -/
  | combinedTooSmall
  deriving DecidableEq, Repr

/-- `validate_input(text)` (lines 97-119): `none` means success.  The
`isinstance` check cannot fail in this embedding (text is a string by
type). -/
def validate_input (text : List Char) : Option OErr :=
  if text = [] then some .textRequired
  else if trim text = [] then some .emptyText
  else if 2000 < text.length then some .tooManyChars
  else if 3000 < utf8Len text then some .tooManyBytes
  else none

/-! ### Language detection (`detect_language`, lines 13-29) -/

/-- A code point in the Devanagari block U+0900 - U+097F. -/
def isDevanagari (c : Char) : Bool :=
  2304 ≤ c.toNat && c.toNat ≤ 2431

def isLatinLetter (c : Char) : Bool :=
  ('a' ≤ c && c ≤ 'z') || ('A' ≤ c && c ≤ 'Z')

/-- `detect_language(text)`: "hi" when any Devanagari code point is
present, otherwise "en" (the Latin-letter branch and the default both
return "en"). -/
def detect_language (text : List Char) : String :=
  if text = [] then "en"
  else if text.any isDevanagari then "hi"
  else if text.any isLatinLetter then "en"
  else "en"

/-! ### Segment request execution (`make_tts_request`, lines 121-199)

The remote endpoint is abstracted as an oracle from the attempt number
to a network response; the request URL (chunk text, language tag,
headers) only determines which oracle is in play and carries no logic
of its own. -/

/-- A byte string, one `Nat` (0-255) per byte. -/
abbrev Bytes := List Nat

/-- Outcome of one `urllib.request.urlopen` call. -/
inductive NetResp where
  /-- HTTP 200 with a response body. -/
  | ok (body : Bytes)
  /-- `socket.timeout`. -/
  | timeout
  /-- `urllib.error.HTTPError` with this status code (also covers the
  explicit raise on a non-200 status at lines 141-142). -/
  | httpErr (code : Nat)
  /-- `urllib.error.URLError` (DNS failure, connection reset, ...). -/
  | urlErr
  /-- Any other exception while performing the request. -/
  | exc
  deriving DecidableEq, Repr

/-- MP3 signature check (line 151): the body starts with
`\xff\xfb` or with `ID3`. -/
def audioSig (b : Bytes) : Bool :=
  b.take 2 == [255, 251] || b.take 3 == [73, 68, 51]

/-- Is `n` a UTF-8 continuation byte (0x80-0xBF)? -/
def contByte (n : Nat) : Bool :=
  128 ≤ n && n ≤ 191

/-- Does the byte string decode as UTF-8 (i.e. `bytes.decode('utf-8')`
does not raise `UnicodeDecodeError`)? -/
def isValidUtf8 : Bytes → Bool
  | [] => true
  | b :: rest =>
    if b ≤ 127 then isValidUtf8 rest
    else if 194 ≤ b && b ≤ 223 then
      match rest with
      | b1 :: r => contByte b1 && isValidUtf8 r
      | [] => false
    else if b == 224 then
      match rest with
      | b1 :: b2 :: r => (160 ≤ b1 && b1 ≤ 191) && contByte b2 && isValidUtf8 r
      | _ => false
    else if (225 ≤ b && b ≤ 236) || b == 238 || b == 239 then
      match rest with
      | b1 :: b2 :: r => contByte b1 && contByte b2 && isValidUtf8 r
      | _ => false
    else if b == 237 then
      match rest with
      | b1 :: b2 :: r => (128 ≤ b1 && b1 ≤ 159) && contByte b2 && isValidUtf8 r
      | _ => false
    else if b == 240 then
      match rest with
      | b1 :: b2 :: b3 :: r =>
        (144 ≤ b1 && b1 ≤ 191) && contByte b2 && contByte b3 && isValidUtf8 r
      | _ => false
    else if 241 ≤ b && b ≤ 243 then
      match rest with
      | b1 :: b2 :: b3 :: r =>
        contByte b1 && contByte b2 && contByte b3 && isValidUtf8 r
      | _ => false
    else if b == 244 then
      match rest with
      | b1 :: b2 :: b3 :: r =>
        (128 ≤ b1 && b1 ≤ 143) && contByte b2 && contByte b3 && isValidUtf8 r
      | _ => false
    else false

/-- The exception classes distinguished by the `except` clauses of one
attempt (lines 161-197): `socket.timeout`, `urllib.error.HTTPError`,
`urllib.error.URLError`, and everything else (which includes the two
`ValueError`s raised for implausible payloads, lines 147-155). -/
inductive Exc where
  | timeout
  | http (code : Nat)
  | url
  | other
  deriving DecidableEq, Repr

/-- One attempt of the `for attempt in range(retries)` body: either a
plausible audio payload is returned, or an exception is classified.
A 200-response body raises `ValueError` (class `.other`) when it is
shorter than 100 bytes, or when it lacks the MP3 signature AND decodes
as UTF-8 text; a non-UTF-8 body without the signature is passed
through (lines 144-159). -/
def attemptOnce (resp : NetResp) : Except Exc Bytes :=
  match resp with
  | .ok body =>
    if body.length < 100 then .error .other
    else if audioSig body then .ok body
    else if isValidUtf8 body then .error .other
    else .ok body
  | .timeout => .error .timeout
  | .httpErr code => .error (.http code)
  | .urlErr => .error .url
  | .exc => .error .other

/-- Whether the classified exception is retried when attempts remain:
every class except an HTTP client error other than 429 (lines 182-183
raise immediately for those). -/
def retryable : Exc → Bool
  | .timeout => true
  | .http code => code == 429 || decide (500 ≤ code)
  | .url => true
  | .other => true

/-- The distinct `ValueError` messages with which `make_tts_request`
ultimately fails, one constructor per `raise` site. -/
inductive TErr where
  /-- "Request timeout after {retries} attempts" -/
  | timeoutExhausted (retries : Nat)
  /-- "Rate limited after {retries} attempts" -/
  | rateLimited (retries : Nat)
  /-- "Server error {code}: {reason}" -/
  | serverError (code : Nat)
  /-- "HTTP error {code}: {reason}" (raised without retrying) -/
  | httpError (code : Nat)
  /-- "Network error after {retries} attempts: {reason}" -/
  | networkError (retries : Nat)
  /-- "Request failed after {retries} attempts: {e}" -/
  | requestFailed (retries : Nat)
  /-- "All retries exhausted" (after the loop; reachable only when
  `retries = 0`) -/
  | allRetriesExhausted
  deriving DecidableEq, Repr

/-- The error raised when the exception `e` is not (or can no longer
be) retried. -/
def exhaustErr (e : Exc) (retries : Nat) : TErr :=
  match e with
  | .timeout => .timeoutExhausted retries
  | .http code =>
    if code == 429 then .rateLimited retries
    else if 500 ≤ code then .serverError code
    else .httpError code
  | .url => .networkError retries
  | .other => .requestFailed retries

/-- The retry loop of `make_tts_request`.  `attempt` is the 0-based
index of the current attempt and `remaining` the number of loop
iterations left (`retries - attempt`); `attempt < retries - 1`, the
source's "retries not yet exhausted", is `remaining ≠ 1`, i.e. the
recursion argument `r ≠ 0`.  The second component of the result is the
number of attempts performed. -/
def mttGo (backend : Nat → NetResp) (retries : Nat) :
    Nat → Nat → Except TErr Bytes × Nat
  | attempt, 0 => (.error .allRetriesExhausted, attempt)
  | attempt, r + 1 =>
    match attemptOnce (backend attempt) with
    | .ok b => (.ok b, attempt + 1)
    | .error e =>
      if retryable e && r != 0 then mttGo backend retries (attempt + 1) r
      else (.error (exhaustErr e retries), attempt + 1)

/-- `make_tts_request(chunk, lang, retries)` (lines 121-199) over an
attempt-indexed backend oracle.  Returns the result together with the
number of attempts performed. -/
def make_tts_request (backend : Nat → NetResp) (retries : Nat) :
    Except TErr Bytes × Nat :=
  mttGo backend retries 0 retries

/-! ### Orchestration (`text_to_speech`, lines 200-287) -/

/-- One entry of `failed_chunks` (line 238): the 1-based chunk index,
the first 50 characters of the chunk, and the error. -/
structure Failure where
  chunk : Nat
  text : List Char
  error : TErr
  deriving DecidableEq, Repr

/-- The result dictionary of `text_to_speech`: absent keys are `none`.
`audio` holds the base64 rendering of the combined bytes, `warnings`
the summary message string of line 271. -/
structure TTSResult where
  success : Bool
  error : Option OErr
  audio : Option String
  warnings : Option String
  failed_chunks : Option (List Failure)
  deriving DecidableEq, Repr

def b64Alphabet : List Char :=
  "ABCDEFGHIJKLMNOPQRSTUVWXYZabcdefghijklmnopqrstuvwxyz0123456789+/".toList

def b64Digit (n : Nat) : Char :=
  b64Alphabet.getD n 'A'

/-- `base64.b64encode` (line 265): standard alphabet with padding. -/
def b64encode : Bytes → List Char
  | [] => []
  | [a] => [b64Digit (a / 4), b64Digit (a % 4 * 16), '=', '=']
  | [a, b] => [b64Digit (a / 4), b64Digit (a % 4 * 16 + b / 16),
               b64Digit (b % 16 * 4), '=']
  | a :: b :: c :: rest =>
    b64Digit (a / 4) :: b64Digit (a % 4 * 16 + b / 16) ::
    b64Digit (b % 16 * 4 + c / 64) :: b64Digit (c % 64) :: b64encode rest

/-- "{n} chunks failed but audio was still generated" (line 271). -/
def warnMsg (n : Nat) : String :=
  toString n ++ " chunks failed but audio was still generated"

/-- Outcome of the dispatch loop (lines 223-246). -/
inductive DispatchOut where
  /-- The abort branch of lines 241-246 was taken. -/
  | aborted (failed : List Failure) (calls : Nat)
  /-- All chunks were iterated. -/
  | finished (parts : List Bytes) (failed : List Failure) (calls : Nat)
  deriving DecidableEq, Repr

/-- The dispatch loop (`for i, chunk in enumerate(chunks)`, lines
223-246): each chunk is sent through `make_tts_request` (with the
default `retries = 3`) against its own attempt oracle `backend i`;
successes are appended to `parts`, failures are recorded (index,
50-character excerpt, error) and the loop aborts as soon as the
failure count exceeds `total / 2` (integer division).  `calls` counts
the invocations of `make_tts_request`. -/
def dispatchGo (backend : Nat → Nat → NetResp) (total : Nat) :
    List (List Char) → Nat → List Bytes → List Failure → Nat → DispatchOut
  | [], _, parts, failed, calls => .finished parts failed calls
  | c :: cs, i, parts, failed, calls =>
    match make_tts_request (backend i) 3 with
    | (.ok b, _) => dispatchGo backend total cs (i + 1) (parts ++ [b]) failed (calls + 1)
    | (.error e, _) =>
      let failed2 := failed ++ [⟨i + 1, c.take 50, e⟩]
      if total / 2 < failed2.length then .aborted failed2 (calls + 1)
      else dispatchGo backend total cs (i + 1) parts failed2 (calls + 1)

/-- Dispatching and assembling (lines 218-275), entered once chunking
has produced the non-empty list `chunks`.  Mirrors the Python
straight-line code: abort result, the no-audio check, the
combined-size check, then the success dictionary with warnings
attached when some chunks failed. -/
def dispatchAndAssemble (chunks : List (List Char))
    (backend : Nat → Nat → NetResp) : TTSResult × Nat :=
  match dispatchGo backend chunks.length chunks 0 [] [] 0 with
  | .aborted failed calls =>
    (⟨false, some (.tooManyFailed failed.length chunks.length), none, none,
      some failed⟩, calls)
  | .finished parts failed calls =>
    if parts = [] then
      (⟨false, some .noAudio, none, none, some failed⟩, calls)
    else
      if parts.flatten.length < 100 then
        (⟨false, some .combinedTooSmall, none, none, none⟩, calls)
      else if failed = [] then
        (⟨true, none, some (String.mk (b64encode parts.flatten)), none, none⟩, calls)
      else
        (⟨true, none, some (String.mk (b64encode parts.flatten)),
          some (warnMsg failed.length), some failed⟩, calls)

/-- `text_to_speech(text, voice)` (lines 200-287): validation, language
detection (the `if not lang` guard is kept although `detect_language`
never returns the empty string), chunking with the 190-character cap,
then dispatch and assembly.  The second component counts the
`make_tts_request` invocations ("network requests") of the run. -/
def text_to_speech (text : List Char) (backend : Nat → Nat → NetResp) :
    TTSResult × Nat :=
  match validate_input text with
  | some e => (⟨false, some e, none, none, none⟩, 0)
  | none =>
    let lang := detect_language (trim text)
    if lang = "" then (⟨false, some .noLanguage, none, none, none⟩, 0)
    else
      let chunks := chunk_text (trim text) 190
      if chunks = [] then (⟨false, some .chunkingFailed, none, none, none⟩, 0)
      else dispatchAndAssemble chunks backend

/-! ### Basic facts about `trim` -/

theorem dropWhile_idem (p : Char → Bool) (l : List Char) :
    (l.dropWhile p).dropWhile p = l.dropWhile p := by
  induction l with
  | nil => rfl
  | cons c cs ih =>
    by_cases h : p c = true <;> simp [List.dropWhile_cons, h, ih]

theorem head?_dropWhile (p : Char → Bool) (l : List Char) (c : Char)
    (h : (l.dropWhile p).head? = some c) : p c = false := by
  induction l with
  | nil => simp at h
  | cons d ds ih =>
    by_cases hd : p d = true
    · rw [List.dropWhile_cons, if_pos hd] at h
      exact ih h
    · rw [List.dropWhile_cons, if_neg hd] at h
      simp only [List.head?_cons, Option.some.injEq] at h
      subst h
      simpa using hd

theorem dropWhile_eq_self (p : Char → Bool) (l : List Char)
    (h : ∀ c, l.head? = some c → p c = false) : l.dropWhile p = l := by
  cases l with
  | nil => rfl
  | cons c cs =>
    rw [List.dropWhile_cons, if_neg]
    simp [h c rfl]

/-- `l.dropWhile p` decomposes `l` minus a leading run of `p`. -/
theorem trimRight_decomp (l : List Char) :
    ∃ u, (∀ c ∈ u, isWs c = true) ∧
      l = ((l.reverse.dropWhile isWs).reverse) ++ u := by
  refine ⟨(l.reverse.takeWhile isWs).reverse, ?_, ?_⟩
  · intro c hc
    rw [List.mem_reverse] at hc
    exact List.mem_takeWhile_imp hc
  · conv_lhs => rw [← l.reverse_reverse, ← List.takeWhile_append_dropWhile (p := isWs) (l := l.reverse)]
    rw [List.reverse_append]

theorem trim_getLast? (l : List Char) (c : Char)
    (h : (trim l).getLast? = some c) : isWs c = false := by
  unfold trim at h
  rw [List.getLast?_reverse] at h
  exact head?_dropWhile _ _ _ h

theorem trim_head? (l : List Char) (c : Char)
    (h : (trim l).head? = some c) : isWs c = false := by
  obtain ⟨u, _, hdec⟩ := trimRight_decomp (l.dropWhile isWs)
  have htl : (l.dropWhile isWs).head? = some c := by
    rw [hdec]
    cases htr : trim l with
    | nil => rw [htr] at h; simp at h
    | cons d ds =>
      have : trim l = (((l.dropWhile isWs).reverse.dropWhile isWs).reverse) := rfl
      rw [← this, htr]
      rw [htr] at h
      simpa using h
  exact head?_dropWhile _ _ _ htl

theorem trim_idem (l : List Char) : trim (trim l) = trim l := by
  have h1 : (trim l).dropWhile isWs = trim l :=
    dropWhile_eq_self _ _ (fun c hc => trim_head? l c hc)
  have h2 : (trim l).reverse.dropWhile isWs = (trim l).reverse := by
    refine dropWhile_eq_self _ _ (fun c hc => ?_)
    rw [List.head?_reverse] at hc
    exact trim_getLast? l c hc
  show ((((trim l).dropWhile isWs).reverse).dropWhile isWs).reverse = trim l
  rw [h1, h2, List.reverse_reverse]

theorem trim_nil : trim ([] : List Char) = [] := rfl

/-! ### C1 — the chunker's length bound -/

/-- A short second sentence, an overlong middle sentence: the middle
sentence is installed as the new buffer without a length check
(line 58 of `tts.py`) and later flushed oversized. -/
def c1Text : List Char := "Hi. AAAAAAAAAAAAAAAA. Yo".toList

/-- C1: the claim "every segment returned by `chunk_text` has length
at most `maxLen`" FAILS on the code: with `maxLen = 10` the input
`"Hi. AAAAAAAAAAAAAAAA. Yo"` yields the 16-character segment
`"AAAAAAAAAAAAAAAA"`.  (The non-empty / non-whitespace part of the
claim is not at issue here.)  This contradicts the intended hard cap
— the word-splitting fallback exists precisely to cut overlong
sentences, but is only reached when the running buffer is empty. -/
theorem C1_oversized_chunk :
    chunk_text c1Text 10 =
      ["Hi".toList, "AAAAAAAAAAAAAAAA".toList, "Yo".toList] ∧
    ∃ c ∈ chunk_text c1Text 10, 10 < c.length := by
  refine ⟨by decide, "AAAAAAAAAAAAAAAA".toList, by decide, by decide⟩

/-! ### C6 — the sentence-delimiter set -/

/-- C6: the claim that `chunk_text` splits sentences on `.`, `!`, `?`
and the Devanagari full stop `।` FAILS on the code: the regex
character class contains the Cyrillic letters р, е, д (a mojibake of
`।`), so `।` does not split while each of those Cyrillic letters
does. -/
theorem C6_mojibake_delimiters :
    splitSentences ['a', '।', 'b'] = [['a', '।', 'b']] ∧
    splitSentences ['a', 'р', 'b'] = [['a'], ['b']] ∧
    splitSentences ['a', 'е', 'b'] = [['a'], ['b']] ∧
    splitSentences ['a', 'д', 'b'] = [['a'], ['b']] ∧
    isSentenceDelim '।' = false := by decide

/-! ### C9 — small inputs -/

/-- C9: a non-empty pre-trimmed text within the cap is returned as the
single chunk, unchanged; an input that is empty after trimming yields
no chunks. -/
theorem C9_small_input (t : List Char) (maxLen : Nat) :
    (trim t = t → t ≠ [] → t.length ≤ maxLen → chunk_text t maxLen = [t]) ∧
    (trim t = [] → chunk_text t maxLen = []) := by
  constructor
  · intro h1 h2 h3
    unfold chunk_text
    rw [if_neg h2]
    simp only [h1, if_neg h2, if_pos h3]
  · intro h
    by_cases ht : t = []
    · simp [chunk_text, ht]
    · unfold chunk_text
      rw [if_neg ht]
      simp [h]

theorem C9_small_input_witness :
    chunk_text "hello".toList 190 = ["hello".toList] ∧
    chunk_text "  ".toList 190 = [] :=
  ⟨(C9_small_input "hello".toList 190).1 (by decide) (by decide) (by decide),
   (C9_small_input "  ".toList 190).2 (by decide)⟩

/-! ### C8 — chunking is non-empty for validated input -/

theorem chunk_text_ne_nil (t : List Char) (maxLen : Nat) (h : trim t ≠ []) :
    chunk_text t maxLen ≠ [] := by
  have ht : t ≠ [] := by
    intro h0
    exact h (by rw [h0, trim_nil])
  unfold chunk_text
  rw [if_neg ht]
  simp only [if_neg h]
  split
  · simp
  · split <;> split <;> simp_all

theorem detect_language_ne_empty (t : List Char) : detect_language t ≠ "" := by
  unfold detect_language
  split
  · decide
  · split
    · decide
    · split <;> decide

theorem dispatchAndAssemble_no_chunkingFailed (chunks : List (List Char))
    (backend : Nat → Nat → NetResp) :
    (dispatchAndAssemble chunks backend).1.error ≠ some OErr.chunkingFailed := by
  unfold dispatchAndAssemble
  split <;> (repeat' split) <;> simp

/-- C8: for every input that passes validation, `chunk_text` with the
190-character cap returns a non-empty list, so the orchestrator's
"Could not process text into chunks" branch is unreachable. -/
theorem C8_chunking_never_empty (text : List Char)
    (backend : Nat → Nat → NetResp) (h : validate_input text = none) :
    chunk_text (trim text) 190 ≠ [] ∧
    (text_to_speech text backend).1.error ≠ some OErr.chunkingFailed := by
  have ht : text ≠ [] := by
    intro h0
    rw [validate_input, if_pos h0] at h
    cases h
  have h2 : trim text ≠ [] := by
    intro h0
    rw [validate_input, if_neg ht, if_pos h0] at h
    cases h
  have hc : chunk_text (trim text) 190 ≠ [] := by
    apply chunk_text_ne_nil
    rw [trim_idem]
    exact h2
  refine ⟨hc, ?_⟩
  unfold text_to_speech
  rw [h]
  simp only [if_neg (detect_language_ne_empty (trim text)), if_neg hc]
  exact dispatchAndAssemble_no_chunkingFailed _ _

theorem C8_chunking_never_empty_witness :
    chunk_text (trim "Hello world.".toList) 190 ≠ [] ∧
    (text_to_speech "Hello world.".toList
        (fun _ _ => NetResp.exc)).1.error ≠ some OErr.chunkingFailed :=
  C8_chunking_never_empty "Hello world.".toList (fun _ _ => NetResp.exc) (by decide)

/-! ### C4 — invalid input fails immediately with no network call -/

/-- The four error values produced by `validate_input`. -/
def isInvalidInput : OErr → Bool
  | .textRequired => true
  | .emptyText => true
  | .tooManyChars => true
  | .tooManyBytes => true
  | _ => false

/-- C4: for empty, whitespace-only, over-2000-character, or
over-3000-UTF-8-byte input, `text_to_speech` returns `success=false`
with the corresponding validation error and performs zero
`make_tts_request` calls. -/
theorem C4_invalid_input_short_circuit (text : List Char)
    (backend : Nat → Nat → NetResp)
    (h : text = [] ∨ trim text = [] ∨ 2000 < text.length ∨ 3000 < utf8Len text) :
    ∃ e, isInvalidInput e = true ∧
      text_to_speech text backend = (⟨false, some e, none, none, none⟩, 0) := by
  have hv : ∃ e, validate_input text = some e ∧ isInvalidInput e = true := by
    by_cases h1 : text = []
    · exact ⟨.textRequired, by rw [validate_input, if_pos h1], rfl⟩
    · by_cases h2 : trim text = []
      · exact ⟨.emptyText, by rw [validate_input, if_neg h1, if_pos h2], rfl⟩
      · by_cases h3 : 2000 < text.length
        · exact ⟨.tooManyChars,
            by rw [validate_input, if_neg h1, if_neg h2, if_pos h3], rfl⟩
        · by_cases h4 : 3000 < utf8Len text
          · exact ⟨.tooManyBytes,
              by rw [validate_input, if_neg h1, if_neg h2, if_neg h3, if_pos h4], rfl⟩
          · rcases h with h | h | h | h <;> contradiction
  obtain ⟨e, he, hinv⟩ := hv
  refine ⟨e, hinv, ?_⟩
  unfold text_to_speech
  rw [he]

/-- The claim's concrete case: a 2500-character input fails validation
and triggers zero network requests. -/
theorem C4_invalid_input_short_circuit_witness :
    ∃ e, isInvalidInput e = true ∧
      text_to_speech (List.replicate 2500 'a') (fun _ _ => NetResp.exc) =
        (⟨false, some e, none, none, none⟩, 0) :=
  C4_invalid_input_short_circuit (List.replicate 2500 'a') (fun _ _ => NetResp.exc)
    (Or.inr (Or.inr (Or.inl (by rw [List.length_replicate]; omega))))

/-! ### C3 — the retry loop of `make_tts_request` -/

theorem mttGo_ok_spec (backend : Nat → NetResp) (retries N : Nat) (b : Bytes)
    (hN1 : 1 ≤ N) (hN2 : N ≤ retries)
    (hf : ∀ i, i + 1 < N → ∃ e, attemptOnce (backend i) = .error e ∧ retryable e = true)
    (hs : attemptOnce (backend (N - 1)) = .ok b) :
    ∀ remaining attempt, attempt + remaining = retries → attempt + 1 ≤ N →
      mttGo backend retries attempt remaining = (.ok b, N) := by
  intro remaining
  induction remaining with
  | zero =>
    intro attempt h1 h2
    omega
  | succ r ih =>
    intro attempt h1 h2
    by_cases hA : attempt + 1 = N
    · have he : attemptOnce (backend attempt) = .ok b := by
        have : attempt = N - 1 := by omega
        rw [this]
        exact hs
      simp only [mttGo, he]
      rw [hA]
    · obtain ⟨e, he, hr⟩ := hf attempt (by omega)
      have hr0 : r ≠ 0 := by omega
      simp only [mttGo, he]
      rw [if_pos (by simp [hr, hr0])]
      exact ih (attempt + 1) (by omega) (by omega)

theorem mttGo_fail_spec (backend : Nat → NetResp) (retries : Nat) (e : Exc)
    (hf : ∀ i, i < retries → ∃ e2, attemptOnce (backend i) = .error e2 ∧ retryable e2 = true)
    (hlast : attemptOnce (backend (retries - 1)) = .error e) :
    ∀ remaining attempt, attempt + remaining = retries → 1 ≤ remaining →
      mttGo backend retries attempt remaining = (.error (exhaustErr e retries), retries) := by
  intro remaining
  induction remaining with
  | zero =>
    intro attempt h1 h2
    omega
  | succ r ih =>
    intro attempt h1 _
    obtain ⟨e2, he2, hr2⟩ := hf attempt (by omega)
    by_cases hr0 : r = 0
    · have hA : attempt = retries - 1 := by omega
      have he : e2 = e := by
        have h2 := he2
        rw [hA] at h2
        rw [h2] at hlast
        simpa using hlast
      subst he
      simp only [mttGo, he2]
      rw [if_neg (by simp [hr0])]
      have h3 : attempt + 1 = retries := by omega
      rw [h3]
    · simp only [mttGo, he2]
      rw [if_pos (by simp [hr2, hr0])]
      exact ih (attempt + 1) (by omega) (by omega)

/-- C3 (amended): for every backend and `maxRetries ≥ 1`, (a) if the
first `N-1` attempts fail with RETRYABLE classified failures and
attempt `N ≤ maxRetries` yields a plausible payload, the request
returns that payload after exactly `N` attempts; (b) if every attempt
fails with a retryable failure, the request performs exactly
`maxRetries` attempts and fails with the classified reason of the
last failure.  (The original claim, without the retryable
qualification, is false: a non-429 HTTP client error aborts
immediately — see the counterexample.) -/
theorem C3_retry_loop (backend : Nat → NetResp) (retries N : Nat)
    (b : Bytes) (e : Exc) :
    (1 ≤ N → N ≤ retries →
      (∀ i, i + 1 < N → ∃ e2, attemptOnce (backend i) = .error e2 ∧ retryable e2 = true) →
      attemptOnce (backend (N - 1)) = .ok b →
      make_tts_request backend retries = (.ok b, N)) ∧
    (1 ≤ retries →
      (∀ i, i < retries → ∃ e2, attemptOnce (backend i) = .error e2 ∧ retryable e2 = true) →
      attemptOnce (backend (retries - 1)) = .error e →
      make_tts_request backend retries = (.error (exhaustErr e retries), retries)) := by
  constructor
  · intro h1 h2 hf hs
    exact mttGo_ok_spec backend retries N b h1 h2 hf hs retries 0 (by omega) (by omega)
  · intro h1 hf hlast
    exact mttGo_fail_spec backend retries e hf hlast retries 0 (by omega) (by omega)

/-- A plausible audio payload: 100 bytes starting with the MP3 frame
signature `\xff\xfb`. -/
def goodAudio : Bytes := 255 :: 251 :: List.replicate 98 0

/-- A backend that fails on the first attempt with a plain HTTP 404
and would return plausible audio on the second attempt. -/
def c3Backend : Nat → NetResp :=
  fun i => if i = 0 then .httpErr 404 else .ok goodAudio

/-- C3 counterexample: with `maxRetries = 3`, a backend failing once
with HTTP 404 and succeeding on attempt 2.  The claim as stated
requires the payload to be returned after exactly 2 attempts; the
code instead aborts after 1 attempt with the HTTP-error reason,
because a non-429 client error is raised without retrying
(lines 182-183). -/
theorem C3_counterexample :
    attemptOnce (c3Backend 0) = .error (.http 404) ∧
    attemptOnce (c3Backend 1) = .ok goodAudio ∧
    make_tts_request c3Backend 3 = (.error (.httpError 404), 1) ∧
    make_tts_request c3Backend 3 ≠ (.ok goodAudio, 2) := by decide

def c3SuccBackend : Nat → NetResp :=
  fun i => if i = 1 then .ok goodAudio else .timeout

def c3FailBackend : Nat → NetResp := fun _ => .timeout

theorem C3_retry_loop_witness :
    make_tts_request c3SuccBackend 3 = (.ok goodAudio, 2) ∧
    make_tts_request c3FailBackend 3 = (.error (.timeoutExhausted 3), 3) := by
  constructor
  · exact (C3_retry_loop c3SuccBackend 3 2 goodAudio .timeout).1 (by decide) (by decide)
      (fun i hi => by
        have h0 : i = 0 := by omega
        subst h0
        exact ⟨.timeout, by decide, by decide⟩)
      (by decide)
  · exact (C3_retry_loop c3FailBackend 3 2 goodAudio .timeout).2 (by decide)
      (fun i _ => ⟨.timeout, rfl, rfl⟩) (by decide)

/-! ### C10 — payload size lower bound -/

theorem attemptOnce_ok_length (r : NetResp) (b : Bytes)
    (h : attemptOnce r = .ok b) : 100 ≤ b.length := by
  cases r with
  | ok body =>
    simp only [attemptOnce] at h
    by_cases h1 : body.length < 100
    · rw [if_pos h1] at h
      cases h
    · rw [if_neg h1] at h
      have hb : b = body := by
        by_cases h2 : audioSig body = true
        · rw [if_pos h2] at h
          injection h with h
          exact h.symm
        · rw [if_neg h2] at h
          by_cases h3 : isValidUtf8 body = true
          · rw [if_pos h3] at h
            cases h
          · rw [if_neg h3] at h
            injection h with h
            exact h.symm
      subst hb
      omega
  | timeout => simp [attemptOnce] at h
  | httpErr code => simp [attemptOnce] at h
  | urlErr => simp [attemptOnce] at h
  | exc => simp [attemptOnce] at h

theorem mttGo_ok_length (backend : Nat → NetResp) (retries : Nat) :
    ∀ remaining attempt b n,
      mttGo backend retries attempt remaining = (.ok b, n) → 100 ≤ b.length := by
  intro remaining
  induction remaining with
  | zero =>
    intro attempt b n h
    simp [mttGo] at h
  | succ r ih =>
    intro attempt b n h
    cases hres : attemptOnce (backend attempt) with
    | ok b2 =>
      have hstep : mttGo backend retries attempt (r + 1) = (.ok b2, attempt + 1) := by
        simp only [mttGo, hres]
      rw [hstep] at h
      simp only [Prod.mk.injEq] at h
      obtain ⟨h1, _⟩ := h
      injection h1 with h1
      subst h1
      exact attemptOnce_ok_length _ _ hres
    | error e =>
      have hstep : mttGo backend retries attempt (r + 1) =
          (if (retryable e && r != 0) = true
           then mttGo backend retries (attempt + 1) r
           else (.error (exhaustErr e retries), attempt + 1)) := by
        simp only [mttGo, hres]
      rw [hstep] at h
      by_cases hcond : (retryable e && r != 0) = true
      · rw [if_pos hcond] at h
        exact ih (attempt + 1) b n h
      · rw [if_neg hcond] at h
        simp at h

theorem make_tts_request_ok_length (backend : Nat → NetResp) (retries : Nat)
    (b : Bytes) (n : Nat) (h : make_tts_request backend retries = (.ok b, n)) :
    100 ≤ b.length :=
  mttGo_ok_length backend retries retries 0 b n h

theorem dispatchGo_finished_parts (backend : Nat → Nat → NetResp) (total : Nat) :
    ∀ cs i parts failed calls parts2 failed2 calls2,
      dispatchGo backend total cs i parts failed calls = .finished parts2 failed2 calls2 →
      (∀ p ∈ parts, 100 ≤ p.length) → ∀ p ∈ parts2, 100 ≤ p.length := by
  intro cs
  induction cs with
  | nil =>
    intro i parts failed calls parts2 failed2 calls2 h hp
    simp only [dispatchGo] at h
    injection h with h1 h2 h3
    subst h1
    exact hp
  | cons c cs ih =>
    intro i parts failed calls parts2 failed2 calls2 h hp
    cases hreq : make_tts_request (backend i) 3 with
    | mk res att =>
      cases res with
      | ok b =>
        have hstep : dispatchGo backend total (c :: cs) i parts failed calls =
            dispatchGo backend total cs (i + 1) (parts ++ [b]) failed (calls + 1) := by
          simp only [dispatchGo, hreq]
        rw [hstep] at h
        refine ih (i + 1) (parts ++ [b]) failed (calls + 1) parts2 failed2 calls2 h ?_
        intro p hp2
        rcases List.mem_append.mp hp2 with h2 | h2
        · exact hp p h2
        · have hb : p = b := by simpa using h2
          subst hb
          exact make_tts_request_ok_length _ _ _ _ hreq
      | error e =>
        have hstep : dispatchGo backend total (c :: cs) i parts failed calls =
            (if total / 2 < (failed ++ [(⟨i + 1, c.take 50, e⟩ : Failure)]).length
             then .aborted (failed ++ [(⟨i + 1, c.take 50, e⟩ : Failure)]) (calls + 1)
             else dispatchGo backend total cs (i + 1) parts
               (failed ++ [(⟨i + 1, c.take 50, e⟩ : Failure)]) (calls + 1)) := by
          simp only [dispatchGo, hreq]
        rw [hstep] at h
        by_cases hcond : total / 2 < (failed ++ [(⟨i + 1, c.take 50, e⟩ : Failure)]).length
        · rw [if_pos hcond] at h
          cases h
        · rw [if_neg hcond] at h
          exact ih (i + 1) parts (failed ++ [(⟨i + 1, c.take 50, e⟩ : Failure)]) (calls + 1)
            parts2 failed2 calls2 h hp

theorem dispatchAndAssemble_no_tooSmall (chunks : List (List Char))
    (backend : Nat → Nat → NetResp) :
    (dispatchAndAssemble chunks backend).1.error ≠ some OErr.combinedTooSmall := by
  unfold dispatchAndAssemble
  cases hd : dispatchGo backend chunks.length chunks 0 [] [] 0 with
  | aborted f c => simp
  | finished parts failed calls =>
    dsimp only
    by_cases hp : parts = []
    · rw [if_pos hp]
      simp
    · have hall : ∀ p ∈ parts, 100 ≤ p.length :=
        dispatchGo_finished_parts backend chunks.length chunks 0 [] [] 0
          parts failed calls hd (by simp)
      have hlen : 100 ≤ parts.flatten.length := by
        cases parts with
        | nil => exact absurd rfl hp
        | cons p rest =>
          have h1 := hall p (by simp)
          rw [List.flatten_cons, List.length_append]
          omega
      rw [if_neg hp, if_neg (by omega)]
      split <;> simp

theorem validate_input_invalid (text : List Char) (e : OErr)
    (h : validate_input text = some e) : isInvalidInput e = true := by
  unfold validate_input at h
  split_ifs at h <;> injection h with h2 <;> subst h2 <;> rfl

/-- C10: every payload returned by `make_tts_request` is at least 100
bytes long, and consequently the orchestrator's "Combined audio is
too small to be valid" branch is unreachable: no run of
`text_to_speech` ever produces that error. -/
theorem C10_payload_lower_bound :
    (∀ backend retries b n, make_tts_request backend retries = (.ok b, n) →
      100 ≤ b.length) ∧
    (∀ text backend,
      (text_to_speech text backend).1.error ≠ some OErr.combinedTooSmall) := by
  constructor
  · exact make_tts_request_ok_length
  · intro text backend
    unfold text_to_speech
    cases hv : validate_input text with
    | some e =>
      have he := validate_input_invalid text e hv
      simp only []
      intro hcontra
      simp only [Option.some.injEq] at hcontra
      subst hcontra
      cases he
    | none =>
      simp only [if_neg (detect_language_ne_empty (trim text))]
      by_cases hc : chunk_text (trim text) 190 = []
      · rw [if_pos hc]
        simp
      · rw [if_neg hc]
        exact dispatchAndAssemble_no_tooSmall _ _

theorem C10_payload_lower_bound_witness :
    100 ≤ goodAudio.length :=
  C10_payload_lower_bound.1 (fun _ => NetResp.ok goodAudio) 3 goodAudio 1 (by rfl)

/-! ### C2 / C7 — the dispatch loop -/

/-- The failures a full (non-aborting) pass of the dispatch loop over
`cs`, starting at 0-based chunk index `i`, would record, in order. -/
def failuresFrom (backend : Nat → Nat → NetResp) :
    List (List Char) → Nat → List Failure
  | [], _ => []
  | c :: cs, i =>
    match make_tts_request (backend i) 3 with
    | (.ok _, _) => failuresFrom backend cs (i + 1)
    | (.error e, _) => ⟨i + 1, c.take 50, e⟩ :: failuresFrom backend cs (i + 1)

/-- The payloads a full pass of the dispatch loop would collect. -/
def partsFrom (backend : Nat → Nat → NetResp) :
    List (List Char) → Nat → List Bytes
  | [], _ => []
  | _ :: cs, i =>
    match make_tts_request (backend i) 3 with
    | (.ok b, _) => b :: partsFrom backend cs (i + 1)
    | (.error _, _) => partsFrom backend cs (i + 1)

theorem getLast?_cons_of_some {α : Type} (a y : α) (l : List α)
    (h : l.getLast? = some y) : (a :: l).getLast? = some y := by
  cases l with
  | nil => simp at h
  | cons b bs => rw [List.getLast?_cons_cons]; exact h

/-- When the failures of a full pass would not exceed the threshold,
the loop runs to completion and collects exactly the full pass's
parts and failures, calling the executor once per chunk. -/
theorem dispatchGo_finish_spec (backend : Nat → Nat → NetResp) (total : Nat) :
    ∀ cs i parts fails calls,
      fails.length + (failuresFrom backend cs i).length ≤ total / 2 →
      dispatchGo backend total cs i parts fails calls =
        .finished (parts ++ partsFrom backend cs i)
          (fails ++ failuresFrom backend cs i) (calls + cs.length) := by
  intro cs
  induction cs with
  | nil =>
    intro i parts fails calls h
    simp [dispatchGo, failuresFrom, partsFrom]
  | cons c cs ih =>
    intro i parts fails calls h
    cases hreq : make_tts_request (backend i) 3 with
    | mk res att =>
      cases res with
      | ok b =>
        have hF : failuresFrom backend (c :: cs) i = failuresFrom backend cs (i + 1) := by
          simp only [failuresFrom, hreq]
        have hP : partsFrom backend (c :: cs) i = b :: partsFrom backend cs (i + 1) := by
          simp only [partsFrom, hreq]
        have hstep : dispatchGo backend total (c :: cs) i parts fails calls =
            dispatchGo backend total cs (i + 1) (parts ++ [b]) fails (calls + 1) := by
          simp only [dispatchGo, hreq]
        rw [hF] at h
        rw [hstep, ih (i + 1) (parts ++ [b]) fails (calls + 1) h, hF, hP]
        simp [List.length_cons]
        omega
      | error e =>
        have hF : failuresFrom backend (c :: cs) i =
            (⟨i + 1, c.take 50, e⟩ : Failure) :: failuresFrom backend cs (i + 1) := by
          simp only [failuresFrom, hreq]
        have hP : partsFrom backend (c :: cs) i = partsFrom backend cs (i + 1) := by
          simp only [partsFrom, hreq]
        have hcond : ¬ total / 2 < (fails ++ [(⟨i + 1, c.take 50, e⟩ : Failure)]).length := by
          rw [hF] at h
          simp only [List.length_append, List.length_cons, List.length_nil] at h ⊢
          omega
        have hstep : dispatchGo backend total (c :: cs) i parts fails calls =
            dispatchGo backend total cs (i + 1) parts
              (fails ++ [(⟨i + 1, c.take 50, e⟩ : Failure)]) (calls + 1) := by
          simp only [dispatchGo, hreq]
          rw [if_neg hcond]
        have hrec : (fails ++ [(⟨i + 1, c.take 50, e⟩ : Failure)]).length +
            (failuresFrom backend cs (i + 1)).length ≤ total / 2 := by
          rw [hF] at h
          simp only [List.length_append, List.length_cons, List.length_nil] at h ⊢
          omega
        rw [hstep, ih (i + 1) parts _ (calls + 1) hrec, hF]
        simp [hP]
        omega

/-- When the failures of a full pass would exceed the threshold, the
loop aborts at the chunk (index `i + k`) whose failure makes the count
reach `total / 2 + 1`: the recorded failures are exactly those of the
processed prefix, their number is exactly `total / 2 + 1`, the last of
them carries the 1-based index of the chunk at which the loop stopped,
and the executor was called once per processed chunk. -/
theorem dispatchGo_abort_spec (backend : Nat → Nat → NetResp) (total : Nat) :
    ∀ cs i parts fails calls,
      fails.length ≤ total / 2 →
      total / 2 < fails.length + (failuresFrom backend cs i).length →
      ∃ k, k < cs.length ∧
        dispatchGo backend total cs i parts fails calls =
          .aborted (fails ++ failuresFrom backend (cs.take (k + 1)) i)
            (calls + (k + 1)) ∧
        (fails ++ failuresFrom backend (cs.take (k + 1)) i).length = total / 2 + 1 ∧
        (failuresFrom backend (cs.take (k + 1)) i).getLast?.map Failure.chunk =
          some (i + k + 1) := by
  intro cs
  induction cs with
  | nil =>
    intro i parts fails calls h1 h2
    simp [failuresFrom] at h2
    omega
  | cons c cs ih =>
    intro i parts fails calls h1 h2
    cases hreq : make_tts_request (backend i) 3 with
    | mk res att =>
      cases res with
      | ok b =>
        have hF : failuresFrom backend (c :: cs) i = failuresFrom backend cs (i + 1) := by
          simp only [failuresFrom, hreq]
        have hstep : dispatchGo backend total (c :: cs) i parts fails calls =
            dispatchGo backend total cs (i + 1) (parts ++ [b]) fails (calls + 1) := by
          simp only [dispatchGo, hreq]
        rw [hF] at h2
        obtain ⟨k, hk1, hk2, hk3, hk4⟩ := ih (i + 1) (parts ++ [b]) fails (calls + 1) h1 h2
        have htake : failuresFrom backend ((c :: cs).take (k + 1 + 1)) i =
            failuresFrom backend (cs.take (k + 1)) (i + 1) := by
          rw [List.take_succ_cons]
          simp only [failuresFrom, hreq]
        refine ⟨k + 1, by simp only [List.length_cons]; omega, ?_, ?_, ?_⟩
        · rw [hstep, hk2, htake]
          congr 1
          omega
        · rw [htake]
          exact hk3
        · rw [htake, show i + (k + 1) + 1 = i + 1 + k + 1 by omega]
          exact hk4
      | error e =>
        have hF : failuresFrom backend (c :: cs) i =
            (⟨i + 1, c.take 50, e⟩ : Failure) :: failuresFrom backend cs (i + 1) := by
          simp only [failuresFrom, hreq]
        by_cases habort : total / 2 < (fails ++ [(⟨i + 1, c.take 50, e⟩ : Failure)]).length
        · -- the failure of this chunk crosses the threshold: abort here
          have hstep : dispatchGo backend total (c :: cs) i parts fails calls =
              .aborted (fails ++ [(⟨i + 1, c.take 50, e⟩ : Failure)]) (calls + 1) := by
            simp only [dispatchGo, hreq]
            rw [if_pos habort]
          have htake : failuresFrom backend ((c :: cs).take 1) i =
              [(⟨i + 1, c.take 50, e⟩ : Failure)] := by
            simp only [List.take_succ_cons, List.take_zero]
            simp only [failuresFrom, hreq]
          refine ⟨0, by simp, ?_, ?_, ?_⟩
          · rw [hstep, htake]
          · rw [htake, List.length_append, List.length_singleton]
            rw [List.length_append, List.length_singleton] at habort
            omega
          · rw [htake]
            simp
        · -- not yet above the threshold: record and continue
          have hstep : dispatchGo backend total (c :: cs) i parts fails calls =
              dispatchGo backend total cs (i + 1) parts
                (fails ++ [(⟨i + 1, c.take 50, e⟩ : Failure)]) (calls + 1) := by
            simp only [dispatchGo, hreq]
            rw [if_neg habort]
          have h1' : (fails ++ [(⟨i + 1, c.take 50, e⟩ : Failure)]).length ≤ total / 2 := by
            omega
          have h2' : total / 2 <
              (fails ++ [(⟨i + 1, c.take 50, e⟩ : Failure)]).length +
              (failuresFrom backend cs (i + 1)).length := by
            rw [hF] at h2
            rw [List.length_append, List.length_singleton]
            simp only [List.length_cons] at h2
            omega
          obtain ⟨k, hk1, hk2, hk3, hk4⟩ :=
            ih (i + 1) parts (fails ++ [(⟨i + 1, c.take 50, e⟩ : Failure)]) (calls + 1) h1' h2'
          have htake : failuresFrom backend ((c :: cs).take (k + 1 + 1)) i =
              (⟨i + 1, c.take 50, e⟩ : Failure) :: failuresFrom backend (cs.take (k + 1)) (i + 1) := by
            rw [List.take_succ_cons]
            simp only [failuresFrom, hreq]
          refine ⟨k + 1, by simp only [List.length_cons]; omega, ?_, ?_, ?_⟩
          · rw [hstep, hk2, htake, List.append_assoc]
            simp only [List.singleton_append]
            congr 1
            omega
          · rw [htake]
            simp only [List.length_append, List.length_cons, List.length_nil] at hk3 ⊢
            omega
          · rw [htake]
            cases hY : (failuresFrom backend (cs.take (k + 1)) (i + 1)).getLast? with
            | none =>
              rw [hY] at hk4
              simp at hk4
            | some y =>
              rw [getLast?_cons_of_some _ y _ hY]
              rw [hY] at hk4
              rw [show i + (k + 1) + 1 = i + 1 + k + 1 by omega]
              exact hk4

/-- A full pass's failure list decomposes at any prefix length. -/
theorem failuresFrom_take_drop (backend : Nat → Nat → NetResp) :
    ∀ (j : Nat) (cs : List (List Char)) (i : Nat),
      failuresFrom backend cs i =
        failuresFrom backend (cs.take j) i ++
        failuresFrom backend (cs.drop j) (i + j) := by
  intro j
  induction j with
  | zero =>
    intro cs i
    simp [failuresFrom]
  | succ j ih =>
    intro cs i
    cases cs with
    | nil => simp [failuresFrom]
    | cons c cs =>
      rw [List.take_succ_cons, List.drop_succ_cons]
      cases hreq : make_tts_request (backend i) 3 with
      | mk res att =>
        cases res with
        | ok b =>
          have h1 : failuresFrom backend (c :: cs) i =
              failuresFrom backend cs (i + 1) := by
            simp only [failuresFrom, hreq]
          have h2 : failuresFrom backend (c :: cs.take j) i =
              failuresFrom backend (cs.take j) (i + 1) := by
            simp only [failuresFrom, hreq]
          rw [h1, h2, show i + (j + 1) = (i + 1) + j by omega]
          exact ih cs (i + 1)
        | error e =>
          have h1 : failuresFrom backend (c :: cs) i =
              (⟨i + 1, c.take 50, e⟩ : Failure) :: failuresFrom backend cs (i + 1) := by
            simp only [failuresFrom, hreq]
          have h2 : failuresFrom backend (c :: cs.take j) i =
              (⟨i + 1, c.take 50, e⟩ : Failure) :: failuresFrom backend (cs.take j) (i + 1) := by
            simp only [failuresFrom, hreq]
          rw [h1, h2, show i + (j + 1) = (i + 1) + j by omega, List.cons_append,
            ih cs (i + 1)]

/-- Success and failure counts of a full pass partition the chunks. -/
theorem partsFrom_length (backend : Nat → Nat → NetResp) :
    ∀ cs i, (partsFrom backend cs i).length +
      (failuresFrom backend cs i).length = cs.length := by
  intro cs
  induction cs with
  | nil =>
    intro i
    simp [partsFrom, failuresFrom]
  | cons c cs ih =>
    intro i
    cases hreq : make_tts_request (backend i) 3 with
    | mk res att =>
      cases res with
      | ok b =>
        have h1 : partsFrom backend (c :: cs) i = b :: partsFrom backend cs (i + 1) := by
          simp only [partsFrom, hreq]
        have h2 : failuresFrom backend (c :: cs) i = failuresFrom backend cs (i + 1) := by
          simp only [failuresFrom, hreq]
        rw [h1, h2]
        simp only [List.length_cons]
        rw [show (partsFrom backend cs (i + 1)).length + 1 +
            (failuresFrom backend cs (i + 1)).length =
            (partsFrom backend cs (i + 1)).length +
            (failuresFrom backend cs (i + 1)).length + 1 by omega, ih (i + 1)]
      | error e =>
        have h1 : partsFrom backend (c :: cs) i = partsFrom backend cs (i + 1) := by
          simp only [partsFrom, hreq]
        have h2 : failuresFrom backend (c :: cs) i =
            (⟨i + 1, c.take 50, e⟩ : Failure) :: failuresFrom backend cs (i + 1) := by
          simp only [failuresFrom, hreq]
        rw [h1, h2]
        simp only [List.length_cons]
        rw [show (partsFrom backend cs (i + 1)).length +
            ((failuresFrom backend cs (i + 1)).length + 1) =
            (partsFrom backend cs (i + 1)).length +
            (failuresFrom backend cs (i + 1)).length + 1 by omega, ih (i + 1)]

/-- Every payload a full pass would collect is at least 100 bytes. -/
theorem partsFrom_all_length (backend : Nat → Nat → NetResp) :
    ∀ cs i, ∀ p ∈ partsFrom backend cs i, 100 ≤ p.length := by
  intro cs
  induction cs with
  | nil =>
    intro i p hp
    simp [partsFrom] at hp
  | cons c cs ih =>
    intro i p hp
    cases hreq : make_tts_request (backend i) 3 with
    | mk res att =>
      cases res with
      | ok b =>
        have h1 : partsFrom backend (c :: cs) i = b :: partsFrom backend cs (i + 1) := by
          simp only [partsFrom, hreq]
        rw [h1] at hp
        rcases List.mem_cons.mp hp with h2 | h2
        · subst h2
          exact make_tts_request_ok_length _ _ _ _ hreq
        · exact ih (i + 1) p h2
      | error e =>
        have h1 : partsFrom backend (c :: cs) i = partsFrom backend cs (i + 1) := by
          simp only [partsFrom, hreq]
        rw [h1] at hp
        exact ih (i + 1) p hp

/-- The 10-chunk lists and backends of the claim's two scenarios. -/
def tenChunks : List (List Char) := List.replicate 10 ['c']

def sixFailBackend : Nat → Nat → NetResp :=
  fun i _ => if i < 6 then .httpErr 500 else .ok goodAudio

def threeFailBackend : Nat → Nat → NetResp :=
  fun i _ => if i == 1 || i == 4 || i == 8 then .httpErr 500 else .ok goodAudio

set_option maxRecDepth 40000 in
/-- C2: (general) whenever the failures of a run exceed half the chunk
count, the dispatch loop aborts at the failure that makes the count
reach `n/2 + 1`: the result has `success = false`, the abort error,
no audio, and exactly the first `n/2 + 1` failures recorded; the
executor was last called on the chunk of the last recorded failure
(no chunk after it is dispatched).  (Scenario 1) with 10 chunks of
which 6 fail (the first six) the run aborts with no audio after 6
calls; (scenario 2) with 3 failures and 7 successes the run succeeds
with the 7 payloads concatenated in order and 3 warnings. -/
theorem C2_abort_threshold :
    (∀ chunks backend,
      chunks.length / 2 < (failuresFrom backend chunks 0).length →
      ∃ cls,
        dispatchAndAssemble chunks backend =
          (⟨false,
            some (.tooManyFailed (chunks.length / 2 + 1) chunks.length),
            none, none,
            some ((failuresFrom backend chunks 0).take
              (chunks.length / 2 + 1))⟩, cls) ∧
        ((failuresFrom backend chunks 0).take
          (chunks.length / 2 + 1)).getLast?.map Failure.chunk = some cls) ∧
    dispatchAndAssemble tenChunks sixFailBackend =
      (⟨false, some (.tooManyFailed 6 10), none, none,
        some ((List.range 6).map fun j =>
          ⟨j + 1, ['c'], .serverError 500⟩)⟩, 6) ∧
    (dispatchAndAssemble tenChunks threeFailBackend).1 =
      ⟨true, none,
        some (String.mk (b64encode (List.replicate 7 goodAudio).flatten)),
        some (warnMsg 3),
        some [⟨2, ['c'], .serverError 500⟩, ⟨5, ['c'], .serverError 500⟩,
          ⟨9, ['c'], .serverError 500⟩]⟩ := by
  refine ⟨?_, by decide, by decide⟩
  intro chunks backend hF
  obtain ⟨k, hk1, hk2, hk3, hk4⟩ :=
    dispatchGo_abort_spec backend chunks.length chunks 0 [] [] 0
      (by simp) (by simpa using hF)
  simp only [List.nil_append] at hk2 hk3
  have hXtake : (failuresFrom backend chunks 0).take (chunks.length / 2 + 1) =
      failuresFrom backend (chunks.take (k + 1)) 0 := by
    rw [failuresFrom_take_drop backend (k + 1) chunks 0, ← hk3, List.take_left]
  refine ⟨k + 1, ?_, ?_⟩
  · unfold dispatchAndAssemble
    rw [hk2]
    dsimp only
    rw [hXtake, hk3]
    norm_num
  · rw [hXtake]
    simpa using hk4

theorem C2_abort_threshold_witness :
    ∃ cls,
      dispatchAndAssemble (List.replicate 3 ['z']) (fun _ _ => NetResp.timeout) =
        (⟨false,
          some (.tooManyFailed ((List.replicate 3 ['z'] : List (List Char)).length / 2 + 1)
            (List.replicate 3 ['z'] : List (List Char)).length),
          none, none,
          some ((failuresFrom (fun _ _ => NetResp.timeout) (List.replicate 3 ['z']) 0).take
            ((List.replicate 3 ['z'] : List (List Char)).length / 2 + 1))⟩, cls) ∧
      ((failuresFrom (fun _ _ => NetResp.timeout) (List.replicate 3 ['z']) 0).take
        ((List.replicate 3 ['z'] : List (List Char)).length / 2 + 1)).getLast?.map
          Failure.chunk = some cls :=
  C2_abort_threshold.1 (List.replicate 3 ['z']) (fun _ _ => NetResp.timeout) (by decide)

/-! ### C7 — partial failure yields warnings -/

/-- C7 (amended): when at least one but not more than half of the
chunks fail, the run succeeds, the `warnings` field is the summary
STRING reporting the number of failed chunks, and the Failure records
(index, excerpt, reason) are carried by the separate `failed_chunks`
field. -/
theorem C7_partial_failure (chunks : List (List Char))
    (backend : Nat → Nat → NetResp)
    (h1 : 1 ≤ (failuresFrom backend chunks 0).length)
    (h2 : (failuresFrom backend chunks 0).length ≤ chunks.length / 2) :
    (dispatchAndAssemble chunks backend).1 =
      ⟨true, none,
        some (String.mk (b64encode (partsFrom backend chunks 0).flatten)),
        some (warnMsg (failuresFrom backend chunks 0).length),
        some (failuresFrom backend chunks 0)⟩ := by
  have hfin := dispatchGo_finish_spec backend chunks.length chunks 0 [] [] 0
    (by simpa using h2)
  have hplen := partsFrom_length backend chunks 0
  have hpne : partsFrom backend chunks 0 ≠ [] := by
    intro h0
    rw [h0] at hplen
    simp only [List.length_nil, Nat.zero_add] at hplen
    omega
  have hfl : 100 ≤ (partsFrom backend chunks 0).flatten.length := by
    cases hp : partsFrom backend chunks 0 with
    | nil => exact absurd hp hpne
    | cons p rest =>
      have hmem : p ∈ partsFrom backend chunks 0 := by rw [hp]; simp
      have := partsFrom_all_length backend chunks 0 p hmem
      rw [List.flatten_cons, List.length_append]
      omega
  have hfne : failuresFrom backend chunks 0 ≠ [] := by
    intro h0
    rw [h0] at h1
    simp at h1
  unfold dispatchAndAssemble
  rw [hfin]
  simp only [List.nil_append]
  rw [if_neg hpne, if_neg (by omega), if_neg hfne]

def c7BackendA : Nat → Nat → NetResp :=
  fun i _ => if i = 0 then .httpErr 500 else .ok goodAudio

def c7BackendB : Nat → Nat → NetResp :=
  fun i _ => if i = 1 then .timeout else .ok goodAudio

/-- C7 counterexample: `warnings` is a fixed summary sentence, not the
list of Failure records.  Two successful runs over the same chunks
with DIFFERENT failure records (different index and reason) produce
the SAME `warnings` value, so the `warnings` field cannot be (or even
determine) the list of Failure records; the records are in
`failed_chunks`. -/
theorem C7_counterexample :
    (dispatchAndAssemble [['c'], ['d']] c7BackendA).1.success = true ∧
    (dispatchAndAssemble [['c'], ['d']] c7BackendB).1.success = true ∧
    (dispatchAndAssemble [['c'], ['d']] c7BackendA).1.warnings =
      some "1 chunks failed but audio was still generated" ∧
    (dispatchAndAssemble [['c'], ['d']] c7BackendA).1.warnings =
      (dispatchAndAssemble [['c'], ['d']] c7BackendB).1.warnings ∧
    (dispatchAndAssemble [['c'], ['d']] c7BackendA).1.failed_chunks ≠
      (dispatchAndAssemble [['c'], ['d']] c7BackendB).1.failed_chunks := by decide

theorem C7_partial_failure_witness :
    (dispatchAndAssemble [['c'], ['d']] c7BackendA).1 =
      ⟨true, none,
        some (String.mk (b64encode (partsFrom c7BackendA [['c'], ['d']] 0).flatten)),
        some (warnMsg (failuresFrom c7BackendA [['c'], ['d']] 0).length),
        some (failuresFrom c7BackendA [['c'], ['d']] 0)⟩ :=
  C7_partial_failure [['c'], ['d']] c7BackendA (by decide) (by decide)

/-! ### C5 — word preservation through chunking -/

theorem splitWs_nil : splitWs ([] : List Char) = [] := rfl

theorem head?_mem {α : Type} (l : List α) (c : α) (h : l.head? = some c) :
    c ∈ l := by
  cases l with
  | nil => simp at h
  | cons a as =>
    simp only [List.head?_cons, Option.some.injEq] at h
    subst h
    exact List.mem_cons_self a as

theorem getLast?_cons_ne {α : Type} (a : α) (m : List α) (h : m ≠ []) :
    (a :: m).getLast? = m.getLast? := by
  cases m with
  | nil => exact absurd rfl h
  | cons b bs => rw [List.getLast?_cons_cons]

theorem getLast?_mem {α : Type} (l : List α) (c : α) (h : l.getLast? = some c) :
    c ∈ l := by
  induction l with
  | nil => simp at h
  | cons a as ih =>
    cases as with
    | nil =>
      simp only [List.getLast?_singleton, Option.some.injEq] at h
      subst h
      exact List.mem_cons_self a []
    | cons b bs =>
      rw [List.getLast?_cons_cons] at h
      exact List.mem_cons_of_mem a (ih h)

theorem head?_append_left {α : Type} (l t : List α) (h : l ≠ []) :
    (l ++ t).head? = l.head? := by
  cases l with
  | nil => exact absurd rfl h
  | cons a as => rfl

theorem getLast?_append_right {α : Type} (l t : List α) (h : t ≠ []) :
    (l ++ t).getLast? = t.getLast? := by
  induction l with
  | nil => rfl
  | cons a as ih =>
    rw [List.cons_append, getLast?_cons_ne, ih]
    intro h0
    rcases List.append_eq_nil.mp h0 with ⟨_, h2⟩
    exact h h2

theorem mem_trim (l : List Char) (c : Char) (h : c ∈ trim l) : c ∈ l := by
  unfold trim at h
  rw [List.mem_reverse] at h
  have h2 := (List.dropWhile_sublist (l := (l.dropWhile isWs).reverse) isWs).subset h
  rw [List.mem_reverse] at h2
  exact (List.dropWhile_sublist isWs).subset h2

/-- If neither end of `l` is whitespace, stripping is the identity. -/
theorem trim_eq_self (l : List Char)
    (h1 : ∀ c, l.head? = some c → isWs c = false)
    (h2 : ∀ c, l.getLast? = some c → isWs c = false) : trim l = l := by
  have ha : l.dropWhile isWs = l := dropWhile_eq_self _ _ h1
  have hb : l.reverse.dropWhile isWs = l.reverse := by
    refine dropWhile_eq_self _ _ (fun c hc => ?_)
    rw [List.head?_reverse] at hc
    exact h2 c hc
  show ((l.dropWhile isWs).reverse.dropWhile isWs).reverse = l
  rw [ha, hb, List.reverse_reverse]

/-- Splitting distributes over a whitespace character in the middle. -/
theorem splitWsGo_append_ws (w : Char) (hw : isWs w = true) :
    ∀ (x y acc : List Char),
      splitWsGo (x ++ w :: y) acc = splitWsGo x acc ++ splitWs y := by
  intro x
  induction x with
  | nil =>
    intro y acc
    simp only [List.nil_append, splitWsGo, hw]
    by_cases ha : acc.isEmpty
    · rw [if_pos ha, if_pos ha]
      rfl
    · rw [if_neg ha, if_neg ha]
      rfl
  | cons c x ih =>
    intro y acc
    rw [List.cons_append]
    by_cases hc : isWs c = true
    · by_cases ha : acc.isEmpty
      · simp [splitWsGo, hc, ha, ih]
      · simp [splitWsGo, hc, ha, ih]
    · simp [splitWsGo, hc, ih]

theorem splitWs_append_ws (w : Char) (hw : isWs w = true) (x y : List Char) :
    splitWs (x ++ w :: y) = splitWs x ++ splitWs y :=
  splitWsGo_append_ws w hw x y []

theorem splitWs_allWs (u : List Char) (h : ∀ c ∈ u, isWs c = true) :
    splitWs u = [] := by
  induction u with
  | nil => rfl
  | cons c u ih =>
    have hc := h c (List.mem_cons_self c u)
    show splitWsGo (c :: u) [] = []
    simp only [splitWsGo, hc, List.isEmpty_nil, if_pos]
    exact ih (fun d hd => h d (List.mem_cons_of_mem c hd))

theorem splitWs_append_allWs (x u : List Char) (h : ∀ c ∈ u, isWs c = true) :
    splitWs (x ++ u) = splitWs x := by
  cases u with
  | nil => rw [List.append_nil]
  | cons w u =>
    rw [splitWs_append_ws w (h w (List.mem_cons_self w u)) x u,
      splitWs_allWs u (fun d hd => h d (List.mem_cons_of_mem w hd)),
      List.append_nil]

theorem splitWs_allWs_append (u x : List Char) (h : ∀ c ∈ u, isWs c = true) :
    splitWs (u ++ x) = splitWs x := by
  induction u with
  | nil => rfl
  | cons w u ih =>
    have : w :: u ++ x = [] ++ w :: (u ++ x) := by simp
    rw [this, splitWs_append_ws w (h w (List.mem_cons_self w u)) [] (u ++ x),
      ih (fun d hd => h d (List.mem_cons_of_mem w hd))]
    rfl

/-- Python `text.split()` ignores leading/trailing whitespace, so
splitting the stripped text gives the same words. -/
theorem splitWs_trim (l : List Char) : splitWs (trim l) = splitWs l := by
  obtain ⟨u, hu, hdec⟩ := trimRight_decomp (l.dropWhile isWs)
  have h1 : splitWs l = splitWs (l.dropWhile isWs) := by
    conv_lhs => rw [← List.takeWhile_append_dropWhile (p := isWs) (l := l)]
    exact splitWs_allWs_append _ _ (fun c hc => List.mem_takeWhile_imp hc)
  have h2 : splitWs (l.dropWhile isWs) = splitWs (trim l) := by
    conv_lhs => rw [hdec]
    exact splitWs_append_allWs _ u hu
  rw [h1, h2]

theorem splitWsGo_noWs (w : List Char) (hw : ∀ c ∈ w, isWs c = false) :
    ∀ acc, acc ≠ [] ∨ w ≠ [] → splitWsGo w acc = [acc.reverse ++ w] := by
  induction w with
  | nil =>
    intro acc hor
    have ha : acc ≠ [] := by
      rcases hor with h | h
      · exact h
      · exact absurd rfl h
    show (if acc.isEmpty then [] else [acc.reverse]) = [acc.reverse ++ []]
    rw [if_neg (by simpa using ha), List.append_nil]
  | cons c w ih =>
    intro acc _
    have hc := hw c (List.mem_cons_self c w)
    show (if isWs c = true then _ else splitWsGo w (c :: acc)) = _
    rw [if_neg (by simp [hc])]
    rw [ih (fun d hd => hw d (List.mem_cons_of_mem c hd)) (c :: acc)
      (Or.inl (List.cons_ne_nil c acc))]
    simp

/-- A non-empty whitespace-free string is a single word. -/
theorem splitWs_single (w : List Char) (h1 : w ≠ [])
    (h2 : ∀ c ∈ w, isWs c = false) : splitWs w = [w] := by
  show splitWsGo w [] = [w]
  rw [splitWsGo_noWs w h2 [] (Or.inr h1)]
  rfl

theorem splitWsGo_ne_nil : ∀ (l acc : List Char), acc ≠ [] →
    splitWsGo l acc ≠ [] := by
  intro l
  induction l with
  | nil =>
    intro acc ha
    show (if acc.isEmpty then [] else [acc.reverse]) ≠ []
    rw [if_neg (by simpa using ha)]
    exact List.cons_ne_nil _ _
  | cons c rest ih =>
    intro acc ha
    show (if isWs c = true then _ else _) ≠ []
    by_cases hc : isWs c = true
    · rw [if_pos hc, if_neg (by simpa using ha)]
      exact List.cons_ne_nil _ _
    · rw [if_neg hc]
      exact ih (c :: acc) (List.cons_ne_nil c acc)

theorem splitWs_ne_nil (l : List Char) (h1 : l ≠ [])
    (h2 : ∀ c, l.head? = some c → isWs c = false) : splitWs l ≠ [] := by
  cases l with
  | nil => exact absurd rfl h1
  | cons c rest =>
    have hc := h2 c rfl
    show splitWsGo (c :: rest) [] ≠ []
    show (if isWs c = true then _ else _) ≠ []
    rw [if_neg (by simp [hc])]
    exact splitWsGo_ne_nil rest [c] (List.cons_ne_nil c [])

/-- Every piece produced by `splitWs` is a non-empty whitespace-free
word. -/
theorem splitWs_mem_good : ∀ (l acc : List Char),
    (∀ c ∈ acc, isWs c = false) →
    ∀ w ∈ splitWsGo l acc, w ≠ [] ∧ ∀ c ∈ w, isWs c = false := by
  intro l
  induction l with
  | nil =>
    intro acc hacc w hw
    by_cases ha : acc.isEmpty
    · simp only [splitWsGo, if_pos ha] at hw
      simp at hw
    · simp only [splitWsGo, if_neg ha] at hw
      have : w = acc.reverse := by simpa using hw
      subst this
      refine ⟨by simpa using ha, fun c hc => hacc c (List.mem_reverse.mp hc)⟩
  | cons c rest ih =>
    intro acc hacc w hw
    by_cases hc : isWs c = true
    · by_cases ha : acc.isEmpty
      · simp only [splitWsGo, hc, if_true, if_pos ha] at hw
        exact ih [] (by simp) w hw
      · simp only [splitWsGo, hc, if_true, if_neg ha] at hw
        rcases List.mem_cons.mp hw with h2 | h2
        · subst h2
          refine ⟨by simpa using ha, fun d hd => hacc d (List.mem_reverse.mp hd)⟩
        · exact ih [] (by simp) w h2
    · simp only [splitWsGo, hc] at hw
      refine ih (c :: acc) ?_ w (by simpa using hw)
      intro d hd
      rcases List.mem_cons.mp hd with h2 | h2
      · subst h2
        simpa using hc
      · exact hacc d h2

/-- Chunks joined by a single space, the normalization under which the
amended claim compares word sequences. -/
def spaceJoin : List (List Char) → List Char
  | [] => []
  | [x] => x
  | x :: y :: xs => x ++ ' ' :: spaceJoin (y :: xs)

theorem splitWs_spaceJoin : ∀ cs : List (List Char),
    splitWs (spaceJoin cs) = (cs.map splitWs).flatten := by
  intro cs
  induction cs with
  | nil => rfl
  | cons x xs ih =>
    cases xs with
    | nil => simp [spaceJoin]
    | cons y ys =>
      show splitWs (x ++ ' ' :: spaceJoin (y :: ys)) = _
      rw [splitWs_append_ws ' ' (by decide) x (spaceJoin (y :: ys)), ih]
      simp

/-- Without any delimiter character the regex split returns the whole
text as the single sentence candidate. -/
theorem splitSentGo_no_delim : ∀ (l acc : List Char),
    (∀ c ∈ l, isSentenceDelim c = false) →
    splitSentGo l acc false = [acc.reverse ++ l] := by
  intro l
  induction l with
  | nil =>
    intro acc _
    simp [splitSentGo]
  | cons c rest ih =>
    intro acc h
    have hc := h c (List.mem_cons_self c rest)
    show (if false && isWs c = true then _ else if isSentenceDelim c = true then _ else _) = _
    rw [if_neg (by simp), if_neg (by simp [hc])]
    rw [ih (c :: acc) (fun d hd => h d (List.mem_cons_of_mem c hd))]
    simp

theorem splitSentences_no_delim (l : List Char)
    (h : ∀ c ∈ l, isSentenceDelim c = false) : splitSentences l = [l] := by
  show splitSentGo l [] false = [l]
  rw [splitSentGo_no_delim l [] h]
  rfl

/-- The running buffer invariant: empty, or whitespace-free at both
ends (such a buffer is its own `strip`). -/
def goodBuf (t : List Char) : Prop :=
  t = [] ∨ ((∀ c, t.head? = some c → isWs c = false) ∧
            (∀ c, t.getLast? = some c → isWs c = false))

theorem goodBuf_trim (t : List Char) (h : goodBuf t) : trim t = t := by
  rcases h with h | ⟨h1, h2⟩
  · subst h
    rfl
  · exact trim_eq_self t h1 h2

theorem goodBuf_word (w : List Char) (h : ∀ c ∈ w, isWs c = false) :
    goodBuf w :=
  Or.inr ⟨fun c hc => h c (head?_mem w c hc), fun c hc => h c (getLast?_mem w c hc)⟩

theorem goodBuf_extend (temp w : List Char) (htemp : temp ≠ [])
    (hg : goodBuf temp) (hw1 : w ≠ []) (hw2 : ∀ c ∈ w, isWs c = false) :
    goodBuf (temp ++ ' ' :: w) := by
  rcases hg with h | ⟨h1, h2⟩
  · exact absurd h htemp
  · refine Or.inr ⟨?_, ?_⟩
    · intro c hc
      rw [head?_append_left temp (' ' :: w) htemp] at hc
      exact h1 c hc
    · intro c hc
      rw [getLast?_append_right temp (' ' :: w) (List.cons_ne_nil _ _),
        getLast?_cons_ne ' ' w hw1] at hc
      exact hw2 c (getLast?_mem w c hc)

/-- The invariant of the word loop: the words of the emitted chunks
followed by the words of the buffer are exactly the words consumed so
far (no word is truncated, dropped or merged, because every word is
strictly shorter than the cap), the buffer stays whitespace-free at
both ends, and every emitted chunk is non-empty and its own strip. -/
theorem wordLoop_spec (maxLen : Nat) :
    ∀ (ws chunks : List (List Char)) (temp : List Char)
      (cs2 : List (List Char)) (tmp : List Char),
      (∀ w ∈ ws, (w ≠ [] ∧ ∀ c ∈ w, isWs c = false) ∧ w.length < maxLen) →
      goodBuf temp →
      (∀ c ∈ chunks, trim c = c ∧ c ≠ []) →
      wordLoop maxLen ws chunks temp = (cs2, tmp) →
      (cs2.map splitWs).flatten ++ splitWs tmp =
        (chunks.map splitWs).flatten ++ splitWs temp ++ ws ∧
      goodBuf tmp ∧
      (∀ c ∈ cs2, trim c = c ∧ c ≠ []) := by
  intro ws
  induction ws with
  | nil =>
    intro chunks temp cs2 tmp _ hg hch heq
    simp only [wordLoop] at heq
    injection heq with e1 e2
    subst e1
    subst e2
    exact ⟨by rw [List.append_nil], hg, hch⟩
  | cons w ws ih =>
    intro chunks temp cs2 tmp hws hg hch heq
    obtain ⟨⟨hw1, hw2⟩, hw3⟩ := hws w (List.mem_cons_self w ws)
    have hws' : ∀ v ∈ ws, (v ≠ [] ∧ ∀ c ∈ v, isWs c = false) ∧ v.length < maxLen :=
      fun v hv => hws v (List.mem_cons_of_mem w hv)
    by_cases hover : temp.length + w.length + 1 > maxLen
    · by_cases htemp : temp = []
      · exfalso
        rw [htemp] at hover
        simp only [List.length_nil] at hover
        omega
      · -- flush the buffer, then continue with `w` as the new buffer
        have hstep : wordLoop maxLen (w :: ws) chunks temp =
            wordLoop maxLen ws (chunks ++ [trim temp]) w := by
          simp only [wordLoop]
          rw [if_pos hover, if_neg htemp]
        rw [hstep] at heq
        have htr : trim temp = temp := goodBuf_trim temp hg
        have hch' : ∀ c ∈ chunks ++ [trim temp], trim c = c ∧ c ≠ [] := by
          intro c hc
          rcases List.mem_append.mp hc with h2 | h2
          · exact hch c h2
          · have : c = trim temp := by simpa using h2
            subst this
            exact ⟨trim_idem temp, by rw [htr]; exact htemp⟩
        obtain ⟨e1, e2, e3⟩ := ih (chunks ++ [trim temp]) w cs2 tmp hws'
          (goodBuf_word w hw2) hch' heq
        refine ⟨?_, e2, e3⟩
        rw [e1, htr, splitWs_single w hw1 hw2]
        simp [List.append_assoc]
    · -- append `w` to the buffer
      have hstep : wordLoop maxLen (w :: ws) chunks temp =
          wordLoop maxLen ws chunks (if temp = [] then w else temp ++ ' ' :: w) := by
        simp only [wordLoop]
        rw [if_neg hover]
      rw [hstep] at heq
      by_cases htemp : temp = []
      · rw [if_pos htemp] at heq
        obtain ⟨e1, e2, e3⟩ := ih chunks w cs2 tmp hws' (goodBuf_word w hw2) hch heq
        refine ⟨?_, e2, e3⟩
        rw [e1, htemp, splitWs_single w hw1 hw2]
        simp [splitWs_nil]
      · rw [if_neg htemp] at heq
        obtain ⟨e1, e2, e3⟩ := ih chunks (temp ++ ' ' :: w) cs2 tmp hws'
          (goodBuf_extend temp w htemp hg hw1 hw2) hch heq
        refine ⟨?_, e2, e3⟩
        rw [e1, splitWs_append_ws ' ' (by decide) temp w, splitWs_single w hw1 hw2]
        simp [List.append_assoc]

/-- C5 (amended): for every input without any sentence-delimiter
character in which every whitespace-separated word is strictly shorter
than `maxLen`, joining the chunks with single spaces and splitting on
whitespace yields exactly the original word sequence.  (The original
claim — plain concatenation, arbitrary input — is false: delimiters
are discarded by the sentence split, words longer than the cap are
truncated, and plain concatenation merges words across chunk
boundaries; see the counterexample.) -/
theorem C5_word_preservation (text : List Char) (maxLen : Nat)
    (hdelim : ∀ c ∈ text, isSentenceDelim c = false)
    (hwords : ∀ w ∈ splitWs text, w.length < maxLen) :
    splitWs (spaceJoin (chunk_text text maxLen)) = splitWs text := by
  by_cases h0 : text = []
  · subst h0
    rfl
  · have hsplit_t : splitWs (trim text) = splitWs text := splitWs_trim text
    by_cases h1 : trim text = []
    · have hck : chunk_text text maxLen = [] := by
        unfold chunk_text
        rw [if_neg h0]
        simp [h1]
      rw [hck, ← hsplit_t, h1]
      rfl
    · by_cases h2 : (trim text).length ≤ maxLen
      · have hck : chunk_text text maxLen = [trim text] := by
          unfold chunk_text
          rw [if_neg h0]
          simp [h1, h2]
        rw [hck, show spaceJoin [trim text] = trim text from rfl, hsplit_t]
      · -- the main branch: sentence split (no delimiters), word loop
        have hdelim_t : ∀ c ∈ trim text, isSentenceDelim c = false :=
          fun c hc => hdelim c (mem_trim text c hc)
        have htt : trim (trim text) = trim text := trim_idem text
        have hhead : ∀ c, (trim text).head? = some c → isWs c = false :=
          fun c hc => trim_head? text c hc
        have hws : ∀ w ∈ splitWs (trim text),
            (w ≠ [] ∧ ∀ c ∈ w, isWs c = false) ∧ w.length < maxLen := by
          intro w hw
          exact ⟨splitWs_mem_good (trim text) [] (by simp) w hw,
            hwords w (hsplit_t ▸ hw)⟩
        rcases hwl : wordLoop maxLen (splitWs (trim text)) [] [] with ⟨cs2, tmp⟩
        obtain ⟨heq, hgb, hch⟩ := wordLoop_spec maxLen (splitWs (trim text)) [] [] cs2 tmp
          hws (Or.inl rfl) (by simp) hwl
        simp only [List.map_nil, List.flatten_nil, List.nil_append] at heq
        have hTnil : splitWs ([] : List Char) = [] := rfl
        rw [hTnil, List.nil_append] at heq
        have hcond : ([] : List Char).length + (trim text).length + 1 > maxLen := by
          simp only [List.length_nil]
          omega
        have hsent : sentLoop maxLen [trim text] [] [] =
            (cs2, if tmp = [] then [] else tmp) := by
          simp [sentLoop, htt, h1, hcond, hwl]
          intro h3
          exfalso
          omega
        -- the final chunk list
        have hch2 : ∀ c ∈ (if tmp = [] then cs2 else cs2 ++ [trim tmp]),
            trim c = c ∧ c ≠ [] := by
          by_cases htmp : tmp = []
          · rw [if_pos htmp]
            exact hch
          · rw [if_neg htmp]
            intro c hc
            rcases List.mem_append.mp hc with h3 | h3
            · exact hch c h3
            · have : c = trim tmp := by simpa using h3
              subst this
              exact ⟨trim_idem tmp, by rw [goodBuf_trim tmp hgb]; exact htmp⟩
        have hflat : (((if tmp = [] then cs2 else cs2 ++ [trim tmp]).map splitWs)).flatten =
            splitWs (trim text) := by
          by_cases htmp : tmp = []
          · rw [if_pos htmp]
            rw [htmp] at heq
            rw [hTnil, List.append_nil] at heq
            exact heq
          · rw [if_neg htmp]
            simp only [List.map_append, List.flatten_append, List.map_cons,
              List.map_nil, List.flatten_cons, List.flatten_nil, List.append_nil]
            rw [splitWs_trim tmp]
            exact heq
        have hfe : ((if tmp = [] then cs2 else cs2 ++ [trim tmp]).filter
            (fun c => !(trim c).isEmpty)) = (if tmp = [] then cs2 else cs2 ++ [trim tmp]) := by
          rw [List.filter_eq_self]
          intro c hc
          obtain ⟨hc1, hc2⟩ := hch2 c hc
          rw [hc1]
          simpa using hc2
        have hne : (if tmp = [] then cs2 else cs2 ++ [trim tmp]) ≠ [] := by
          intro hnil
          have : splitWs (trim text) = [] := by
            rw [← hflat, hnil]
            rfl
          exact splitWs_ne_nil (trim text) h1 hhead this
        have hcur : (if (if tmp = [] then [] else tmp) = [] then cs2
              else cs2 ++ [trim (if tmp = [] then [] else tmp)]) =
            (if tmp = [] then cs2 else cs2 ++ [trim tmp]) := by
          by_cases htmp : tmp = [] <;> simp [htmp]
        have hck : chunk_text text maxLen = (if tmp = [] then cs2 else cs2 ++ [trim tmp]) := by
          unfold chunk_text
          rw [if_neg h0]
          simp only [if_neg h1, if_neg h2,
            splitSentences_no_delim (trim text) hdelim_t, hsent]
          rw [hcur, hfe, if_neg hne]
        rw [hck, splitWs_spaceJoin, hflat, hsplit_t]

set_option maxRecDepth 4000 in
/-- C5 counterexample: a single 201-character word with the default
`max_length = 200`.  The word is hard-truncated to 200 characters, so
concatenating the chunks and splitting on whitespace does not
reproduce the original word sequence. -/
theorem C5_counterexample :
    splitWs ((chunk_text (List.replicate 201 'a') 200).flatten) ≠
      splitWs (List.replicate 201 'a') := by decide

theorem C5_word_preservation_witness :
    splitWs (spaceJoin (chunk_text "hello world hi".toList 6)) =
      splitWs "hello world hi".toList :=
  C5_word_preservation "hello world hi".toList 6 (by decide) (by decide)

end TTS
